import Mathlib

/-!
A shallow embedding of `python/ray/data/datasource/webdataset_datasource.py`:
the WebDataset codec (path splitting, tar-entry iteration, sample grouping on
the decode path; record encoding on the encode path), together with proofs of
the specification claims.  Byte payloads are modelled as `List Nat`.
-/

namespace WD

/-- The reserved sample-key field name `__key__`. -/
def keyKey : String := "__key__"

/-- The reserved source-url field name `__url__`. -/
def keyUrl : String := "__url__"

/-- The reserved validity-marker field name `__bad__`. -/
def keyBad : String := "__bad__"

/-- A value stored in a decoded sample dict: a string (the `__key__` or
`__url__` metadata) or a byte payload (entry contents). -/
inductive SVal where
  | str (s : String)
  | bytes (b : List Nat)
deriving DecidableEq, Repr

/-- Python truthiness of a sample value: a string or byte string is truthy
iff it is nonempty. -/
def SVal.truthy : SVal → Bool
  | SVal.str s => !(s == "")
  | SVal.bytes b => !b.isEmpty

/-- A sample: a Python dict in insertion order (keys unique by construction,
as every insertion is guarded by a membership check). -/
abbrev Sample := List (String × SVal)

/-- `str.lower()` (ASCII case mapping; the format's suffixes are ASCII). -/
def lowerStr (s : String) : String := ⟨s.data.map Char.toLower⟩

/-! ### `base_plus_ext`

`re.match(r"^((?:.*/|)[^.]+)[.]([^/]*)$", path)`.  The whole string must be
`A ++ B ++ "." ++ C` where `A` is empty or ends in a slash (and, because `.`
does not match a newline, contains no newline before that slash), `B` is a
nonempty dot-free run and `C` is slash-free.  The backtracking engine first
tries the `.*/` alternative with a greedy `.*`, i.e. every feasible slash
position from the rightmost down, and then the empty alternative; after a
chosen start, `[^.]+` is forced to the maximal dot-free run, the literal dot
must follow it, and `[^/]*` must reach the end of the string. -/

/-- Match `[^.]+[.][^/]*$` against the whole of `t`, returning the two
captured pieces. -/
def segSplit (t : List Char) : Option (List Char × List Char) :=
  match t.dropWhile (fun c => decide (c ≠ '.')) with
  | [] => none
  | _ :: rest =>
    if (t.takeWhile (fun c => decide (c ≠ '.'))).isEmpty then none
    else if decide ('/' ∈ rest) then none
    else some (t.takeWhile (fun c => decide (c ≠ '.')), rest)

/-- All start positions the engine tries for `[^.]+[.][^/]*$`, in
backtracking order: positions right after a slash with a newline-free
prefix, rightmost first, then position `0` for the empty alternative. -/
def slashStarts (cs : List Char) : List Nat :=
  (((List.range cs.length).filter
      (fun p => decide (cs.getD p ' ' = '/') && decide ('\n' ∉ cs.take p))).map
    (fun p => p + 1)).reverse

/-- The full anchored match, on the character list of the path. -/
def bpeList (cs : List Char) : Option (List Char × List Char) :=
  (slashStarts cs ++ [0]).findSome?
    (fun i =>
      (segSplit (cs.drop i)).map
        (fun (be : List Char × List Char) => (cs.take i ++ be.1, be.2)))

/-- `base_plus_ext(path)`: split off all file extensions; `none` models the
`(None, None)` result. -/
def base_plus_ext (path : String) : Option (String × String) :=
  (bpeList path.data).map (fun be => (⟨be.1⟩, ⟨be.2⟩))

/-! ### `valid_sample` and the tar reader -/

/-- `valid_sample(sample)`: a non-`None` dict with at least one key whose
`__bad__` entry (defaulting to `False`) is not truthy. -/
def valid_sample (sample : Option Sample) : Bool :=
  match sample with
  | none => false
  | some d =>
    decide (0 < d.length) &&
      (match List.lookup keyBad d with
       | none => true
       | some v => !v.truthy)

/-- One record of the underlying tar stream (the `tarfile` library is
external to the repository: an entry exposes a name, a regular-file flag
and its contents). -/
structure TarEntry where
  name : String
  isreg : Bool
  data : List Nat
deriving DecidableEq, Repr

/-- One element yielded by `tar_file_iterator`: the dict
`{fname, data, **meta}`; the only metadata the datasource ever attaches is
`__url__`.  -/
structure FileSample where
  fname : String
  data : List Nat
  url : Option String
deriving DecidableEq, Repr

/-- `tar_file_iterator(fileobj, skipfn, meta)`: skip entries that are not
regular files or that the skip predicate rejects (a string name is never
`None`); yield name, contents and the attached metadata. -/
def tar_file_iterator (entries : List TarEntry) (skipfn : String → Bool)
    (url : Option String) : List FileSample :=
  entries.filterMap
    (fun e => if e.isreg && !skipfn e.name then some ⟨e.name, e.data, url⟩ else none)

/-! ### `group_by_keys` -/

/-- `current_sample = dict(__key__=prefix)` followed by
`if "__url__" in filesample: current_sample["__url__"] = filesample["__url__"]`. -/
def newSample (pre : String) (url : Option String) : Sample :=
  match url with
  | some u => [(keyKey, SVal.str pre), (keyUrl, SVal.str u)]
  | none => [(keyKey, SVal.str pre)]

/-- The negation of `prefix != current_sample["__key__"]` (the `__key__`
entry is always present and a string, having been set at creation). -/
def sameKey (s : Sample) (pre : String) : Bool :=
  match List.lookup keyKey s with
  | some (SVal.str k) => k == pre
  | _ => false

/-- `suffix in current_sample`. -/
def hasField (s : Sample) (k : String) : Bool := (List.lookup k s).isSome

/-- A dict assignment `d[k] = v`.  At every call site the key is absent (the
duplicate check precedes field insertion, and `__url__` is set on a fresh
dict), so the assignment appends in insertion order. -/
def addField (s : Sample) (k : String) (v : SVal) : Sample := s ++ [(k, v)]

/-- `if valid_sample(current_sample): yield current_sample`. -/
def sealEmit (cur : Option Sample) : List Sample :=
  if valid_sample cur then cur.toList else []

/-- The `ValueError` raised on a duplicate suffix: its message interpolates
the entry name, the suffix and the keys of the in-progress sample. -/
structure GErr where
  fname : String
  suffix : String
  keys : List String
deriving DecidableEq, Repr

/-- The tail of the loop body of `group_by_keys`, after the prefix check and
possible sealing: the duplicate check, then the allow-list filter, then the
field insertion. -/
def ingest (sfx : Option (List String)) (suffix : String) (fs : FileSample)
    (emitted : List Sample) (s1 : Sample) :
    List Sample × Option Sample × Option GErr :=
  if hasField s1 suffix then (emitted, some s1, some ⟨fs.fname, suffix, s1.map Prod.fst⟩)
  else
    match sfx with
    | none => (emitted, some (addField s1 suffix (SVal.bytes fs.data)), none)
    | some l =>
      if suffix ∈ l then (emitted, some (addField s1 suffix (SVal.bytes fs.data)), none)
      else (emitted, some s1, none)

/-- One iteration of the loop body of `group_by_keys`: the samples yielded
during the iteration, the new in-progress sample, and the error if the
iteration raised. -/
def groupStep (lcase : Bool) (sfx : Option (List String)) (cur : Option Sample)
    (fs : FileSample) : List Sample × Option Sample × Option GErr :=
  match base_plus_ext fs.fname with
  | none => ([], cur, none)
  | some pe =>
    let suffix := if lcase then lowerStr pe.2 else pe.2
    match cur with
    | none => ingest sfx suffix fs (sealEmit none) (newSample pe.1 fs.url)
    | some s =>
      if sameKey s pe.1 then ingest sfx suffix fs [] s
      else ingest sfx suffix fs (sealEmit (some s)) (newSample pe.1 fs.url)

/-- The loop of `group_by_keys`: everything yielded during the loop, the
in-progress sample at loop exit, and the error if the loop raised. -/
def groupSteps (lcase : Bool) (sfx : Option (List String)) :
    Option Sample → List FileSample → List Sample × Option Sample × Option GErr
  | cur, [] => ([], cur, none)
  | cur, fs :: rest =>
    match groupStep lcase sfx cur fs with
    | (em, cur', none) =>
      let r := groupSteps lcase sfx cur' rest
      (em ++ r.1, r.2.1, r.2.2)
    | (em, cur', some e) => (em, cur', some e)

/-- A full pass of `group_by_keys` from a given in-progress sample: the
yielded samples (loop yields plus the final seal) and the error if the
generator raised instead of finishing. -/
def groupRun (lcase : Bool) (sfx : Option (List String)) (cur : Option Sample)
    (data : List FileSample) : List Sample × Option GErr :=
  match groupSteps lcase sfx cur data with
  | (em, cur', none) => (em ++ sealEmit cur', none)
  | (em, _, some e) => (em, some e)

/-- `group_by_keys(data, keys=base_plus_ext, lcase=lcase, suffixes=sfx)`. -/
def group_by_keys (data : List FileSample) (lcase : Bool)
    (sfx : Option (List String)) : List Sample × Option GErr :=
  groupRun lcase sfx none data

/-- The decode pipeline of `WebDatasetDatasource._read_stream`:
`group_by_keys(tar_file_iterator(stream, meta=dict(__url__=path)))` with the
default arguments `lcase=True`, `suffixes=None`. -/
def readSamples (entries : List TarEntry) (path : String) :
    List Sample × Option GErr :=
  group_by_keys (tar_file_iterator entries (fun _ => false) (some path)) true none

/-! ### `_write_block` -/

/-- A value in a row handed to `_write_block`: bytes, text, `None`, or
anything else (`other` stands for a value of any further type, e.g. an
int, on which `assert isinstance(v, bytes) or isinstance(v, str)` fails). -/
inductive RVal where
  | bytes (b : List Nat)
  | str (s : String)
  | null
  | other
deriving DecidableEq, Repr

/-- `isinstance(v, bytes)`. -/
def RVal.isBytes : RVal → Bool
  | RVal.bytes _ => true
  | _ => false

/-- A row of the block, as produced by `table_to_list`: a dict from column
name to value, in column order. -/
abbrev Record := List (String × RVal)

/-- `k.startswith("__")`. -/
def startsDunder (k : String) : Bool :=
  match k.data with
  | '_' :: '_' :: _ => true
  | _ => false

/-- `v.encode("utf-8")`. -/
def utf8Bytes (s : String) : List Nat := s.toUTF8.toList.map (fun b => b.toNat)

/-- One tar entry written by `_write_block`: name `f"{key}.{k}"`, the
payload, `ti.size = len(v)`, and `ti.mode, ti.uname, ti.gname = 0o644,
"data", "data"` (420 is 0o644; `ti.mtime = time.time()` is wall-clock time,
outside the embedding). -/
structure OutEntry where
  name : String
  data : List Nat
  size : Nat
  mode : Nat
  uname : String
  gname : String
deriving DecidableEq, Repr

def mkEntry (key k : String) (payload : List Nat) : OutEntry :=
  ⟨key ++ "." ++ k, payload, payload.length, 420, "data", "data"⟩

/-- `if not "__key__" in sample: sample["__key__"] = uuid.uuid4().hex`
(assigning a missing dict key appends). -/
def keyedRecord (gen : String) (r : Record) : Record :=
  if (List.lookup keyKey r).isSome then r else r ++ [(keyKey, RVal.str gen)]

/-- `key = sample["__key__"]`.  In this format the `__key__` column holds a
string (decode writes it as one), and `f"{key}.{k}"` is the identity on
strings; the fallback for an absent or non-string key is never reached at
the call site (the key was just ensured). -/
def recordKeyOf (r : Record) : String :=
  match List.lookup keyKey r with
  | some (RVal.str s) => s
  | _ => ""

/-- The inner loop of `_write_block`: skip `None` values and
double-underscore names; otherwise require bytes or text — the failed
`assert` is reported as the Bool — encoding text as UTF-8; each surviving
field is pushed to the destination immediately as one tar entry. -/
def encodeFields (key : String) : List (String × RVal) → List OutEntry × Bool
  | [] => ([], false)
  | kv :: rest =>
    if kv.2 = RVal.null then encodeFields key rest
    else if startsDunder kv.1 then encodeFields key rest
    else
      match kv.2 with
      | RVal.bytes b =>
        let t := encodeFields key rest
        (mkEntry key kv.1 b :: t.1, t.2)
      | RVal.str s =>
        let t := encodeFields key rest
        (mkEntry key kv.1 (utf8Bytes s) :: t.1, t.2)
      | _ => ([], true)

/-- One iteration of the outer loop of `_write_block`. -/
def encodeRecord (gen : String) (r : Record) : List OutEntry × Bool :=
  encodeFields (recordKeyOf (keyedRecord gen r)) (keyedRecord gen r)

/-- The outer loop of `_write_block`, from the `i`-th fresh key on: each
record is keyed then written field by field; a failed assert aborts the
whole pass, leaving the entries already pushed to the stream written. -/
def encodeBlockAux (gen : Nat → String) : Nat → List Record → List OutEntry × Bool
  | _, [] => ([], false)
  | i, r :: rs =>
    match encodeRecord (gen i) r with
    | (es, false) =>
      let t := encodeBlockAux gen (i + 1) rs
      (es ++ t.1, t.2)
    | (es, true) => (es, true)

def encodeBlock (gen : Nat → String) (rs : List Record) : List OutEntry × Bool :=
  encodeBlockAux gen 0 rs

def hexChars : List Char := ("0123456789abcdef").data

def hexDigit (n : Nat) : Char := hexChars.getD (n % 16) '0'

/-- Modelled from the spec: `uuid.uuid4().hex` (the `uuid` library is
external to the repository) — "a freshly generated unique identifier": a
random 128-bit identifier rendered as 32 lowercase hex digits, modelled as
a function of the randomness consumed.  The relevant properties are that
the result is 32 hex characters, hence nonempty and free of dots and
slashes. -/
def uuid4Hex (seed : Nat) : String :=
  ⟨(List.range 32).map (fun i => hexDigit (seed / 16 ^ i % 16))⟩

/-- `WebDatasetDatasource._write_block`: the rows of the block written in
order; `entropy` supplies the randomness consumed by each `uuid.uuid4()`
call. -/
def writeBlock (entropy : Nat → Nat) (rs : List Record) : List OutEntry × Bool :=
  encodeBlock (fun i => uuid4Hex (entropy i)) rs

/-- A written entry as the tar reader will see it back (`addfile` writes a
regular file). -/
def outToTar (e : OutEntry) : TarEntry := ⟨e.name, true, e.data⟩

/-- Decoding an archive produced by `_write_block`: the `_read_stream`
pipeline applied to the written entries (with no source metadata). -/
def decodeEntries (es : List OutEntry) : List Sample × Option GErr :=
  group_by_keys (tar_file_iterator (es.map outToTar) (fun _ => false) none) true none

/-! ### Round-trip vocabulary -/

/-- The fields of a record that `_write_block` writes as entries when every
writable field is byte-valued: name and payload, in record order. -/
def bytesFields (r : Record) : List (String × List Nat) :=
  r.filterMap
    (fun kv =>
      if startsDunder kv.1 then none
      else
        match kv.2 with
        | RVal.bytes b => some (kv.1, b)
        | _ => none)

/-- The sample that decoding gives back for one well-formed written
record. -/
def roundSample (r : Record) : Sample :=
  (keyKey, SVal.str (recordKeyOf r)) ::
    (bytesFields r).map (fun kb => (kb.1, SVal.bytes kb.2))

/-- The file-samples the decode pipeline sees for one written record. -/
def recFiles (r : Record) : List FileSample :=
  (bytesFields r).map
    (fun kb => ⟨recordKeyOf r ++ "." ++ kb.1, kb.2, none⟩)

/-- A key that survives the `{key}.{field}` name round trip: nonempty (the
regex needs a nonempty `[^.]+` run), dot-free (so the first dot of the
entry name is the separator) and slash-free. -/
def goodKey (k : String) : Prop :=
  k ≠ "" ∧ ('.' ∉ k.data) ∧ ('/' ∉ k.data)

/-- A field name that survives the round trip: not a reserved
double-underscore name (those are skipped on write), slash-free (the
regex's `[^/]*` must cover it) and already lower-case (decode lower-cases
suffixes by default). -/
def goodFieldName (k : String) : Prop :=
  startsDunder k = false ∧ ('/' ∉ k.data) ∧ lowerStr k = k

/-- A record the round trip preserves: a string `__key__` that is a
`goodKey`, unique field names, every other field a byte payload under a
`goodFieldName`, and at least one such payload field. -/
def wfRecord (r : Record) : Prop :=
  List.lookup keyKey r = some (RVal.str (recordKeyOf r))
  ∧ goodKey (recordKeyOf r)
  ∧ (r.map Prod.fst).Nodup
  ∧ (∀ kv ∈ r, kv.1 ≠ keyKey → goodFieldName kv.1 ∧ kv.2.isBytes = true)
  ∧ bytesFields r ≠ []

instance (k : String) : Decidable (goodKey k) :=
  inferInstanceAs (Decidable (k ≠ "" ∧ ('.' ∉ k.data) ∧ ('/' ∉ k.data)))

instance (k : String) : Decidable (goodFieldName k) :=
  inferInstanceAs
    (Decidable (startsDunder k = false ∧ ('/' ∉ k.data) ∧ lowerStr k = k))

instance (r : Record) : Decidable (wfRecord r) :=
  inferInstanceAs
    (Decidable (List.lookup keyKey r = some (RVal.str (recordKeyOf r))
      ∧ goodKey (recordKeyOf r)
      ∧ (r.map Prod.fst).Nodup
      ∧ (∀ kv ∈ r, kv.1 ≠ keyKey → goodFieldName kv.1 ∧ kv.2.isBytes = true)
      ∧ bytesFields r ≠ []))

/-- The entries `_write_block` has pushed for the fields preceding a failing
one. -/
def writableOf (key : String) (l : List (String × RVal)) : List OutEntry :=
  l.filterMap
    (fun kv =>
      if kv.2 = RVal.null then none
      else if startsDunder kv.1 then none
      else
        match kv.2 with
        | RVal.bytes b => some (mkEntry key kv.1 b)
        | RVal.str s => some (mkEntry key kv.1 (utf8Bytes s))
        | _ => none)

/-! ### Lemmas about the path splitter -/

theorem drop_append_le {α : Type} (u w : List α) (i : Nat) (h : i ≤ u.length) :
    (u ++ w).drop i = u.drop i ++ w := by
  induction u generalizing i with
  | nil =>
    have : i = 0 := by simpa using h
    simp [this]
  | cons a t ih =>
    cases i with
    | zero => simp
    | succ j => simpa using ih j (by simpa using h)

theorem drop_append_ge {α : Type} (u w : List α) (i : Nat) (h : u.length ≤ i) :
    (u ++ w).drop i = w.drop (i - u.length) := by
  induction u generalizing i with
  | nil => simp
  | cons a t ih =>
    cases i with
    | zero => simp at h
    | succ j => simpa using ih j (by simpa using h)

theorem segSplit_no_dot (t : List Char) (h : '.' ∉ t) : segSplit t = none := by
  have hall : ∀ c ∈ t, (fun c => decide (c ≠ '.')) c = true := by
    intro c hc
    simp only [decide_eq_true_eq]
    exact fun he => h (he ▸ hc)
  unfold segSplit
  rw [List.dropWhile_eq_nil_iff.mpr hall]

theorem segSplit_shape (a b : List Char) (ha : '.' ∉ a) (hne : a ≠ []) :
    segSplit (a ++ '.' :: b) = if decide ('/' ∈ b) then none else some (a, b) := by
  have hall : ∀ c ∈ a, (fun c => decide (c ≠ '.')) c = true := by
    intro c hc
    simp only [decide_eq_true_eq]
    exact fun he => ha (he ▸ hc)
  unfold segSplit
  rw [List.dropWhile_append_of_pos hall, List.dropWhile_cons_of_neg (by simp),
    List.takeWhile_append_of_pos hall, List.takeWhile_cons_of_neg (by simp)]
  simp [hne]

theorem mem_takeWhile_pred {α : Type} (p : α → Bool) (l : List α) :
    ∀ x ∈ l.takeWhile p, p x = true := by
  induction l with
  | nil => simp
  | cons a t ih =>
    by_cases h : p a
    · rw [List.takeWhile_cons_of_pos h]
      intro x hx
      rcases List.mem_cons.mp hx with rfl | hx
      · exact h
      · exact ih x hx
    · rw [List.takeWhile_cons_of_neg h]
      simp

theorem dropWhile_dot_of_mem {w : List Char} (hw : '.' ∈ w) :
    ∃ w2, w.dropWhile (fun c => decide (c ≠ '.')) = '.' :: w2 := by
  induction w with
  | nil => cases hw
  | cons c t ih =>
    by_cases hc : c = '.'
    · subst hc
      exact ⟨t, by simp⟩
    · rw [List.dropWhile_cons_of_pos (by simpa using hc)]
      rcases List.mem_cons.mp hw with h | h
      · exact absurd h.symm hc
      · exact ih h

theorem segSplit_mid_slash (w v : List Char) (hv : '.' ∉ v) :
    segSplit (w ++ '/' :: v) = none := by
  by_cases hw : '.' ∈ w
  · obtain ⟨w2, hw2⟩ := dropWhile_dot_of_mem hw
    have hsplit : w = w.takeWhile (fun c => decide (c ≠ '.')) ++ '.' :: w2 := by
      conv_lhs => rw [← List.takeWhile_append_dropWhile (fun c => decide (c ≠ '.')) w]
      rw [hw2]
    have hall : ∀ c ∈ w.takeWhile (fun c => decide (c ≠ '.')),
        (fun c => decide (c ≠ '.')) c = true :=
      mem_takeWhile_pred (fun c => decide (c ≠ '.')) w
    unfold segSplit
    rw [show w ++ '/' :: v
        = w.takeWhile (fun c => decide (c ≠ '.')) ++ '.' :: (w2 ++ '/' :: v) by
      conv_lhs => rw [hsplit]
      simp]
    rw [List.dropWhile_append_of_pos hall, List.dropWhile_cons_of_neg (by simp),
      List.takeWhile_append_of_pos hall, List.takeWhile_cons_of_neg (by simp)]
    have hmem : '/' ∈ w2 ++ '/' :: v := by simp
    by_cases he : (w.takeWhile (fun c => decide (c ≠ '.')) ++ ([] : List Char)).isEmpty <;>
      simp [he, hmem]
  · apply segSplit_no_dot
    intro hmem
    rcases List.mem_append.mp hmem with h | h
    · exact hw h
    · rcases List.mem_cons.mp h with h' | h'
      · cases h'
      · exact hv h'

theorem slashStarts_no_slash (cs : List Char) (h : '/' ∉ cs) : slashStarts cs = [] := by
  unfold slashStarts
  have hnil : (List.range cs.length).filter
      (fun p => decide (cs.getD p ' ' = '/') && decide ('\n' ∉ cs.take p)) = [] := by
    rw [List.filter_eq_nil_iff]
    intro p _
    simp only [Bool.and_eq_true, decide_eq_true_eq, not_and]
    intro hc
    exfalso
    rw [List.getD_eq_getElem?_getD] at hc
    cases hg : cs[p]? with
    | none => rw [hg] at hc; simp at hc
    | some x =>
      rw [hg] at hc
      simp only [Option.getD_some] at hc
      subst hc
      exact h (List.getElem?_mem hg)
  rw [hnil]
  rfl

theorem slashStarts_last (d r : List Char) (hr : '/' ∉ r) (hd : '\n' ∉ d) :
    ∃ rest, slashStarts (d ++ '/' :: r) = (d.length + 1) :: rest := by
  unfold slashStarts
  have hlen : (d ++ '/' :: r).length = (d.length + 1) + r.length := by
    simp
    omega
  rw [hlen, List.range_add, List.filter_append]
  have h2 : ((List.range r.length).map ((d.length + 1) + ·)).filter
      (fun p => decide ((d ++ '/' :: r).getD p ' ' = '/') &&
        decide ('\n' ∉ (d ++ '/' :: r).take p)) = [] := by
    rw [List.filter_eq_nil_iff]
    intro p hp
    simp only [List.mem_map] at hp
    obtain ⟨x, _, rfl⟩ := hp
    simp only [Bool.and_eq_true, decide_eq_true_eq, not_and]
    intro hc
    exfalso
    have hge : (d ++ '/' :: r).getD (d.length + 1 + x) ' ' = r.getD x ' ' := by
      rw [show d ++ '/' :: r = (d ++ ['/']) ++ r by simp]
      rw [List.getD_eq_getElem?_getD, List.getD_eq_getElem?_getD,
        List.getElem?_append_right
          (by simp only [List.length_append, List.length_cons, List.length_nil]; omega)]
      have hx : d.length + 1 + x - (d ++ ['/']).length = x := by
        simp only [List.length_append, List.length_cons, List.length_nil]
        omega
      rw [hx]
    rw [hge, List.getD_eq_getElem?_getD] at hc
    cases hg : r[x]? with
    | none => rw [hg] at hc; simp at hc
    | some c =>
      rw [hg] at hc
      simp only [Option.getD_some] at hc
      subst hc
      exact hr (List.getElem?_mem hg)
  rw [h2, List.append_nil]
  rw [List.range_succ, List.filter_append]
  have h1 : [d.length].filter
      (fun p => decide ((d ++ '/' :: r).getD p ' ' = '/') &&
        decide ('\n' ∉ (d ++ '/' :: r).take p)) = [d.length] := by
    simp only [List.filter_cons, List.filter_nil]
    have hg : (d ++ '/' :: r).getD d.length ' ' = '/' := by
      rw [List.getD_eq_getElem?_getD,
        List.getElem?_append_right (Nat.le_refl d.length)]
      simp
    have ht : (d ++ '/' :: r).take d.length = d := List.take_left' rfl
    rw [hg, ht]
    simp [hd]
  rw [h1, List.map_append, List.reverse_append]
  simp only [List.map_cons, List.map_nil, List.reverse_cons, List.reverse_nil,
    List.nil_append, List.singleton_append]
  exact ⟨_, rfl⟩

theorem bpeList_no_slash (cs x y : List Char) (h : '/' ∉ cs)
    (hseg : segSplit cs = some (x, y)) : bpeList cs = some (x, y) := by
  unfold bpeList
  rw [slashStarts_no_slash cs h]
  simp [hseg]

theorem bpeList_last_slash (d r x y : List Char) (hr : '/' ∉ r) (hd : '\n' ∉ d)
    (hseg : segSplit r = some (x, y)) :
    bpeList (d ++ '/' :: r) = some (d ++ '/' :: x, y) := by
  obtain ⟨rest, hss⟩ := slashStarts_last d r hr hd
  unfold bpeList
  rw [hss]
  have hdrop : (d ++ '/' :: r).drop (d.length + 1) = r := by
    rw [show d ++ '/' :: r = (d ++ ['/']) ++ r by simp]
    exact List.drop_left' (by simp)
  have htake : (d ++ '/' :: r).take (d.length + 1) = d ++ ['/'] := by
    rw [show d ++ '/' :: r = (d ++ ['/']) ++ r by simp]
    exact List.take_left' (by simp)
  rw [List.cons_append, List.findSome?_cons, hdrop, hseg]
  simp [htake]

theorem bpeList_none (u v : List Char) (hu : u = [] ∨ ∃ u', u = u' ++ ['/'])
    (hdot : '.' ∉ v) : bpeList (u ++ v) = none := by
  unfold bpeList
  rw [List.findSome?_eq_none_iff]
  intro i _
  suffices h : segSplit ((u ++ v).drop i) = none by rw [h]; rfl
  by_cases hcase : u.length ≤ i
  · apply segSplit_no_dot
    intro hmem
    rw [drop_append_ge u v i hcase] at hmem
    exact hdot (List.mem_of_mem_drop hmem)
  · rcases hu with rfl | ⟨u', rfl⟩
    · simp at hcase
    · have hi' : i ≤ u'.length := by
        simp only [List.length_append, List.length_cons, List.length_nil] at hcase
        omega
      rw [show u' ++ ['/'] ++ v = u' ++ '/' :: v by simp,
        drop_append_le u' ('/' :: v) i hi']
      exact segSplit_mid_slash _ _ hdot

/-! ### Lemmas about dict lookup -/

theorem lookup_append_some {β : Type} {k : String} {l r : List (String × β)} {v : β}
    (h : List.lookup k l = some v) : List.lookup k (l ++ r) = some v := by
  rw [List.lookup_append, h]
  rfl

theorem lookup_append_none {β : Type} {k : String} {l r : List (String × β)}
    (h : List.lookup k l = none) : List.lookup k (l ++ r) = List.lookup k r := by
  rw [List.lookup_append, h]
  rfl

theorem lookup_none_of_ne {β : Type} {k : String} {l : List (String × β)}
    (h : ∀ kv ∈ l, kv.1 ≠ k) : List.lookup k l = none := by
  rw [List.lookup_eq_none_iff]
  intro p hp
  simpa using (h p hp).symm

/-! ### Lemmas about the grouper -/

theorem mem_sealEmit {cur : Option Sample} {s : Sample} (h : s ∈ sealEmit cur) :
    valid_sample (some s) = true := by
  unfold sealEmit at h
  by_cases hv : valid_sample cur
  · rw [if_pos hv] at h
    cases cur with
    | none => simp at h
    | some d =>
      simp only [Option.toList_some, List.mem_singleton] at h
      subst h
      exact hv
  · rw [if_neg hv] at h
    cases h

theorem ingest_fst (sfx : Option (List String)) (suffix : String) (fs : FileSample)
    (em : List Sample) (s1 : Sample) : (ingest sfx suffix fs em s1).1 = em := by
  unfold ingest
  split
  · rfl
  · split
    · rfl
    · split <;> rfl

theorem groupStep_fst (lcase : Bool) (sfx : Option (List String)) (cur : Option Sample)
    (fs : FileSample) :
    (groupStep lcase sfx cur fs).1 = [] ∨
      ∃ s, cur = some s ∧ (groupStep lcase sfx cur fs).1 = sealEmit (some s) := by
  unfold groupStep
  cases base_plus_ext fs.fname with
  | none => exact Or.inl rfl
  | some pe =>
    cases cur with
    | none =>
      left
      rw [ingest_fst]
      rfl
    | some s =>
      by_cases hk : sameKey s pe.1
      · left
        simp only [hk, if_true]
        exact ingest_fst _ _ _ _ _
      · right
        refine ⟨s, rfl, ?_⟩
        simp only [hk, if_false]
        exact ingest_fst _ _ _ _ _

theorem steps_valid (lcase : Bool) (sfx : Option (List String)) :
    ∀ (data : List FileSample) (cur : Option Sample) (s : Sample),
      s ∈ (groupSteps lcase sfx cur data).1 → valid_sample (some s) = true := by
  intro data
  induction data with
  | nil =>
    intro cur s h
    simp [groupSteps] at h
  | cons fs rest ih =>
    intro cur s h
    have hdef : groupSteps lcase sfx cur (fs :: rest)
        = match groupStep lcase sfx cur fs with
          | (em, cur', none) =>
            let r := groupSteps lcase sfx cur' rest
            (em ++ r.1, r.2.1, r.2.2)
          | (em, cur', some e) => (em, cur', some e) := rfl
    rcases hstep : groupStep lcase sfx cur fs with ⟨em, cur', err⟩
    have hem : ∀ x ∈ em, valid_sample (some x) = true := by
      intro x hx
      rcases groupStep_fst lcase sfx cur fs with h0 | ⟨s0, _, h0⟩
      · rw [hstep] at h0
        simp at h0
        subst h0
        cases hx
      · rw [hstep] at h0
        simp only at h0
        subst h0
        exact mem_sealEmit hx
    cases err with
    | none =>
      rw [hdef, hstep] at h
      simp only [List.mem_append] at h
      rcases h with h | h
      · exact hem s h
      · exact ih cur' s h
    | some e =>
      rw [hdef, hstep] at h
      exact hem s h

/-- The key-shape invariant: a sample created by the grouper starts with its
`__key__` field. -/
def keyShaped (s : Sample) : Prop := ∃ k t, s = (keyKey, SVal.str k) :: t

theorem newSample_shape (pre : String) (url : Option String) :
    keyShaped (newSample pre url) := by
  cases url with
  | none => exact ⟨pre, [], rfl⟩
  | some u => exact ⟨pre, [(keyUrl, SVal.str u)], rfl⟩

theorem addField_shape {s : Sample} (h : keyShaped s) (k : String) (v : SVal) :
    keyShaped (addField s k v) := by
  obtain ⟨k', t, rfl⟩ := h
  exact ⟨k', t ++ [(k, v)], by simp [addField]⟩

theorem ingest_snd (sfx : Option (List String)) (suffix : String) (fs : FileSample)
    (em : List Sample) (s1 : Sample) :
    (ingest sfx suffix fs em s1).2.1 = some s1 ∨
      (ingest sfx suffix fs em s1).2.1
        = some (addField s1 suffix (SVal.bytes fs.data)) := by
  unfold ingest
  split
  · exact Or.inl rfl
  · split
    · exact Or.inr rfl
    · split
      · exact Or.inr rfl
      · exact Or.inl rfl

theorem ingest_shape {sfx : Option (List String)} {suffix : String} {fs : FileSample}
    {em : List Sample} {s1 : Sample} (h : keyShaped s1) :
    ∀ s', (ingest sfx suffix fs em s1).2.1 = some s' → keyShaped s' := by
  intro s' hs'
  rcases ingest_snd sfx suffix fs em s1 with h0 | h0 <;> rw [h0] at hs' <;>
    simp only [Option.some.injEq] at hs'
  · exact hs' ▸ h
  · exact hs' ▸ addField_shape h _ _

theorem groupStep_shape (lcase : Bool) (sfx : Option (List String)) (cur : Option Sample)
    (fs : FileSample) (hcur : ∀ s, cur = some s → keyShaped s) :
    ∀ s', (groupStep lcase sfx cur fs).2.1 = some s' → keyShaped s' := by
  intro s' hs'
  unfold groupStep at hs'
  split at hs'
  · exact hcur s' hs'
  · simp only at hs'
    split at hs'
    · exact ingest_shape (newSample_shape _ _) s' hs'
    · split at hs'
      · exact ingest_shape (hcur _ rfl) s' hs'
      · exact ingest_shape (newSample_shape _ _) s' hs'

theorem steps_shape (lcase : Bool) (sfx : Option (List String)) :
    ∀ (data : List FileSample) (cur : Option Sample),
      (∀ s, cur = some s → keyShaped s) →
      (∀ s, s ∈ (groupSteps lcase sfx cur data).1 → keyShaped s) ∧
        (∀ s, (groupSteps lcase sfx cur data).2.1 = some s → keyShaped s) := by
  intro data
  induction data with
  | nil =>
    intro cur hcur
    exact ⟨by intro s h; simp [groupSteps] at h, by intro s h; exact hcur s h⟩
  | cons fs rest ih =>
    intro cur hcur
    have hdef : groupSteps lcase sfx cur (fs :: rest)
        = match groupStep lcase sfx cur fs with
          | (em, cur', none) =>
            let r := groupSteps lcase sfx cur' rest
            (em ++ r.1, r.2.1, r.2.2)
          | (em, cur', some e) => (em, cur', some e) := rfl
    rcases hstep : groupStep lcase sfx cur fs with ⟨em, cur', err⟩
    have hem : ∀ x ∈ em, keyShaped x := by
      intro x hx
      rcases groupStep_fst lcase sfx cur fs with h0 | ⟨s0, hs0, h0⟩
      · rw [hstep] at h0
        simp at h0
        subst h0
        cases hx
      · rw [hstep] at h0
        simp only at h0
        subst h0
        unfold sealEmit at hx
        by_cases hv : valid_sample (some s0)
        · rw [if_pos hv] at hx
          simp only [Option.toList_some, List.mem_singleton] at hx
          subst hx
          exact hcur x hs0
        · rw [if_neg hv] at hx
          cases hx
    have hcur' : ∀ s, cur' = some s → keyShaped s := by
      intro s hs
      apply groupStep_shape lcase sfx cur fs hcur
      rw [hstep, hs]
    cases err with
    | none =>
      rw [hdef, hstep]
      refine ⟨?_, ?_⟩
      · intro s h
        simp only [List.mem_append] at h
        rcases h with h | h
        · exact hem s h
        · exact (ih cur' hcur').1 s h
      · intro s h
        exact (ih cur' hcur').2 s h
    | some e =>
      rw [hdef, hstep]
      exact ⟨hem, hcur'⟩

/-! ### Lemmas about entry names of written records -/

theorem base_plus_ext_key_field (key k : String) (hk : goodKey key)
    (hkf : '/' ∉ k.data) : base_plus_ext (key ++ "." ++ k) = some (key, k) := by
  obtain ⟨hne, hdot, hslash⟩ := hk
  have hdata : (key ++ "." ++ k).data = key.data ++ '.' :: k.data := by
    rw [String.data_append, String.data_append,
      show (("." : String)).data = ['.'] by decide]
    simp
  have hno : '/' ∉ key.data ++ '.' :: k.data := by
    intro h
    rcases List.mem_append.mp h with h | h
    · exact hslash h
    · rcases List.mem_cons.mp h with h | h
      · cases h
      · exact hkf h
  have hkne : key.data ≠ [] := by
    intro h
    exact hne (String.ext (h.trans (by decide)))
  have hseg : segSplit (key.data ++ '.' :: k.data) = some (key.data, k.data) := by
    rw [segSplit_shape key.data k.data hdot hkne]
    simp [hkf]
  unfold base_plus_ext
  rw [hdata, bpeList_no_slash (key.data ++ '.' :: k.data) key.data k.data hno hseg]
  rfl

/-! ### Lemmas about `bytesFields` and `roundSample` -/

theorem bytesFields_mem {r : Record} {kb : String × List Nat}
    (h : kb ∈ bytesFields r) :
    ∃ v, (kb.1, v) ∈ r ∧ startsDunder kb.1 = false ∧ v = RVal.bytes kb.2 := by
  unfold bytesFields at h
  rw [List.mem_filterMap] at h
  obtain ⟨kv, hkv, hmap⟩ := h
  by_cases hd : startsDunder kv.1
  · rw [if_pos hd] at hmap
    cases hmap
  · rw [if_neg hd] at hmap
    cases hv : kv.2 with
    | bytes b =>
      rw [hv] at hmap
      simp only [Option.some.injEq] at hmap
      refine ⟨RVal.bytes b, ?_, ?_, ?_⟩
      · rw [← hmap]
        simpa [← hv] using hkv
      · rw [← hmap]
        simpa using hd
      · rw [← hmap]
    | str s => rw [hv] at hmap; cases hmap
    | null => rw [hv] at hmap; cases hmap
    | other => rw [hv] at hmap; cases hmap

theorem bytesFields_names_sublist (r : Record) :
    List.Sublist ((bytesFields r).map Prod.fst) (r.map Prod.fst) := by
  induction r with
  | nil => simp [bytesFields]
  | cons kv rest ih =>
    by_cases hd : startsDunder kv.1
    · rw [show bytesFields (kv :: rest) = bytesFields rest by
        simp [bytesFields, List.filterMap_cons, hd]]
      exact ih.cons _
    · cases hv : kv.2 with
      | bytes b =>
        rw [show bytesFields (kv :: rest) = (kv.1, b) :: bytesFields rest by
          simp [bytesFields, List.filterMap_cons, hd, hv]]
        exact ih.cons₂ _
      | str s =>
        rw [show bytesFields (kv :: rest) = bytesFields rest by
          simp [bytesFields, List.filterMap_cons, hd, hv]]
        exact ih.cons _
      | null =>
        rw [show bytesFields (kv :: rest) = bytesFields rest by
          simp [bytesFields, List.filterMap_cons, hd, hv]]
        exact ih.cons _
      | other =>
        rw [show bytesFields (kv :: rest) = bytesFields rest by
          simp [bytesFields, List.filterMap_cons, hd, hv]]
        exact ih.cons _

theorem bytesFields_good {r : Record}
    (hflds : ∀ kv ∈ r, kv.1 ≠ keyKey → goodFieldName kv.1 ∧ kv.2.isBytes = true) :
    ∀ kb ∈ bytesFields r, goodFieldName kb.1 := by
  intro kb hkb
  obtain ⟨v, hmem, hd, _⟩ := bytesFields_mem hkb
  have hne : kb.1 ≠ keyKey := by
    intro he
    have hdk : startsDunder keyKey = true := by decide
    rw [he, hdk] at hd
    cases hd
  exact (hflds (kb.1, v) hmem hne).1

theorem roundSample_lookup_key (r : Record) :
    List.lookup keyKey (roundSample r) = some (SVal.str (recordKeyOf r)) := by
  simp [roundSample]

theorem sameKey_roundSample (r : Record) (p : String) :
    sameKey (roundSample r) p = (recordKeyOf r == p) := by
  unfold sameKey
  rw [roundSample_lookup_key]

theorem roundSample_valid (r : Record) :
    valid_sample (some (roundSample r)) = true := by
  have hbad : List.lookup keyBad (roundSample r) = none := by
    apply lookup_none_of_ne
    intro kv hkv
    rcases List.mem_cons.mp hkv with rfl | hkv
    · exact (by decide : keyKey ≠ keyBad)
    · rw [List.mem_map] at hkv
      obtain ⟨kb, hkb, rfl⟩ := hkv
      have hgood := bytesFields_mem hkb
      obtain ⟨v, _, hd, _⟩ := hgood
      intro he
      have hdb : startsDunder keyBad = true := by decide
      rw [he, hdb] at hd
      cases hd
  show (decide (0 < (roundSample r).length) &&
      match List.lookup keyBad (roundSample r) with
      | none => true
      | some v => !v.truthy) = true
  rw [hbad]
  simp [roundSample]

/-! ### Lemmas about the encoder -/

theorem encodeFields_clean (l : List (String × RVal)) (key : String)
    (h : ∀ kv ∈ l, startsDunder kv.1 = true ∨ ∃ b, kv.2 = RVal.bytes b) :
    encodeFields key l
      = ((bytesFields l).map (fun kb => mkEntry key kb.1 kb.2), false) := by
  induction l with
  | nil => simp [encodeFields, bytesFields]
  | cons kv rest ih =>
    have hrest := ih (fun x hx => h x (List.mem_cons_of_mem kv hx))
    rcases h kv (List.mem_cons_self kv rest) with hd | ⟨b, hb⟩
    · cases hv : kv.2 with
      | null =>
        rw [show encodeFields key (kv :: rest) = encodeFields key rest by
          simp [encodeFields, hv]]
        rw [show bytesFields (kv :: rest) = bytesFields rest by
          simp [bytesFields, List.filterMap_cons, hd]]
        exact hrest
      | bytes b =>
        rw [show encodeFields key (kv :: rest) = encodeFields key rest by
          simp [encodeFields, hv, hd]]
        rw [show bytesFields (kv :: rest) = bytesFields rest by
          simp [bytesFields, List.filterMap_cons, hd]]
        exact hrest
      | str s =>
        rw [show encodeFields key (kv :: rest) = encodeFields key rest by
          simp [encodeFields, hv, hd]]
        rw [show bytesFields (kv :: rest) = bytesFields rest by
          simp [bytesFields, List.filterMap_cons, hd]]
        exact hrest
      | other =>
        rw [show encodeFields key (kv :: rest) = encodeFields key rest by
          simp [encodeFields, hv, hd]]
        rw [show bytesFields (kv :: rest) = bytesFields rest by
          simp [bytesFields, List.filterMap_cons, hd]]
        exact hrest
    · by_cases hd : startsDunder kv.1
      · rw [show encodeFields key (kv :: rest) = encodeFields key rest by
          simp [encodeFields, hb, hd]]
        rw [show bytesFields (kv :: rest) = bytesFields rest by
          simp [bytesFields, List.filterMap_cons, hd]]
        exact hrest
      · rw [show encodeFields key (kv :: rest)
            = (mkEntry key kv.1 b :: (encodeFields key rest).1,
               (encodeFields key rest).2) by
          simp [encodeFields, hb, hd]]
        rw [show bytesFields (kv :: rest) = (kv.1, b) :: bytesFields rest by
          simp [bytesFields, List.filterMap_cons, hd, hb]]
        rw [hrest]
        simp

/-! ### Run lemmas for the grouper on written records -/

theorem groupSteps_nil (lcase : Bool) (sfx : Option (List String)) (cur : Option Sample) :
    groupSteps lcase sfx cur [] = ([], cur, none) := rfl

theorem groupSteps_cons (lcase : Bool) (sfx : Option (List String)) (cur : Option Sample)
    (fs : FileSample) (rest : List FileSample) :
    groupSteps lcase sfx cur (fs :: rest)
      = match groupStep lcase sfx cur fs with
        | (em, cur', none) =>
          let r := groupSteps lcase sfx cur' rest
          (em ++ r.1, r.2.1, r.2.2)
        | (em, cur', some e) => (em, cur', some e) := rfl

/-- Continuing one sample: files for the byte fields of one record, all with
the in-progress sample's key, accumulate the fields one by one. -/
theorem run_fields (fs : List (String × List Nat)) :
    ∀ (s : Sample) (key : String) (more : List FileSample),
      List.lookup keyKey s = some (SVal.str key) →
      goodKey key →
      (∀ kb ∈ fs, goodFieldName kb.1) →
      (fs.map Prod.fst).Nodup →
      (∀ kb ∈ fs, List.lookup kb.1 s = none) →
      groupSteps true none (some s)
          ((fs.map (fun kb => (⟨key ++ "." ++ kb.1, kb.2, none⟩ : FileSample))) ++ more)
        = groupSteps true none
            (some (s ++ fs.map (fun kb => (kb.1, SVal.bytes kb.2)))) more := by
  induction fs with
  | nil =>
    intro s key more _ _ _ _ _
    simp
  | cons kb rest ih =>
    intro s key more hkey hgk hgood hnodup hfresh
    rw [List.map_cons, List.cons_append, groupSteps_cons]
    have hbe : base_plus_ext (key ++ "." ++ kb.1) = some (key, kb.1) :=
      base_plus_ext_key_field key kb.1 hgk (hgood kb (by simp)).2.1
    have hlow : lowerStr kb.1 = kb.1 := (hgood kb (by simp)).2.2
    have hsk : sameKey s key = true := by
      unfold sameKey
      rw [hkey]
      simp
    have hnof : hasField s kb.1 = false := by
      unfold hasField
      rw [hfresh kb (by simp)]
      rfl
    have hstep : groupStep true none (some s) ⟨key ++ "." ++ kb.1, kb.2, none⟩
        = ([], some (s ++ [(kb.1, SVal.bytes kb.2)]), none) := by
      simp [groupStep, hbe, hlow, hsk, ingest, hnof, addField]
    rw [hstep]
    have hnames : kb.1 ∉ rest.map Prod.fst ∧ (rest.map Prod.fst).Nodup := by
      rw [List.map_cons, List.nodup_cons] at hnodup
      exact hnodup
    have hih := ih (s ++ [(kb.1, SVal.bytes kb.2)]) key more
      (lookup_append_some hkey) hgk
      (fun x hx => hgood x (List.mem_cons_of_mem kb hx))
      hnames.2
      (by
        intro x hx
        rw [lookup_append_none (hfresh x (List.mem_cons_of_mem kb hx))]
        apply lookup_none_of_ne
        intro kv hkv
        rcases List.mem_cons.mp hkv with rfl | hkv
        · intro he
          exact hnames.1 (he ▸ List.mem_map_of_mem Prod.fst hx)
        · cases hkv)
    dsimp only
    rw [hih]
    have hassoc : s ++ [(kb.1, SVal.bytes kb.2)]
          ++ rest.map (fun kb => (kb.1, SVal.bytes kb.2))
        = s ++ (kb.1, SVal.bytes kb.2) :: rest.map (fun kb => (kb.1, SVal.bytes kb.2)) := by
      simp
    rw [hassoc]
    simp

/-- One whole record's files: the in-progress sample (if any) is sealed and
emitted if valid, and the record's sample is accumulated. -/
theorem run_record (r : Record) (cur : Option Sample) (more : List FileSample)
    (hwf : wfRecord r)
    (hcur : cur = none ∨ ∃ s, cur = some s ∧ sameKey s (recordKeyOf r) = false) :
    groupSteps true none cur (recFiles r ++ more)
      = (sealEmit cur ++ (groupSteps true none (some (roundSample r)) more).1,
         (groupSteps true none (some (roundSample r)) more).2.1,
         (groupSteps true none (some (roundSample r)) more).2.2) := by
  obtain ⟨hlk, hgk, hnodup, hflds, hbne⟩ := hwf
  have hgoodall := bytesFields_good hflds
  have hnamesnd : ((bytesFields r).map Prod.fst).Nodup :=
    (bytesFields_names_sublist r).nodup hnodup
  rcases hbf : bytesFields r with _ | ⟨kb, kbs⟩
  · exact absurd hbf hbne
  have hgood : ∀ x ∈ kb :: kbs, goodFieldName x.1 := by
    intro x hx
    exact hgoodall x (hbf ▸ hx)
  have hnodup' : ((kb :: kbs).map Prod.fst).Nodup := hbf ▸ hnamesnd
  have hkbne : kb.1 ≠ keyKey := by
    intro he
    have hd := (hgood kb (by simp)).1
    have hdk : startsDunder keyKey = true := by decide
    rw [he, hdk] at hd
    cases hd
  unfold recFiles
  rw [hbf, List.map_cons, List.cons_append, groupSteps_cons]
  have hbe : base_plus_ext (recordKeyOf r ++ "." ++ kb.1) = some (recordKeyOf r, kb.1) :=
    base_plus_ext_key_field (recordKeyOf r) kb.1 hgk (hgood kb (by simp)).2.1
  have hlow : lowerStr kb.1 = kb.1 := (hgood kb (by simp)).2.2
  have hnof : hasField [(keyKey, SVal.str (recordKeyOf r))] kb.1 = false := by
    have hl : List.lookup kb.1 [(keyKey, SVal.str (recordKeyOf r))] = none := by
      apply lookup_none_of_ne
      intro kv hkv
      rcases List.mem_cons.mp hkv with rfl | hkv
      · exact fun he => hkbne he.symm
      · cases hkv
    unfold hasField
    rw [hl]
    rfl
  have hstep : groupStep true none cur ⟨recordKeyOf r ++ "." ++ kb.1, kb.2, none⟩
      = (sealEmit cur,
         some [(keyKey, SVal.str (recordKeyOf r)), (kb.1, SVal.bytes kb.2)], none) := by
    rcases hcur with rfl | ⟨s, rfl, hsk⟩
    · simp [groupStep, hbe, hlow, ingest, hnof, newSample, addField, sealEmit,
        valid_sample]
    · simp [groupStep, hbe, hlow, hsk, ingest, hnof, newSample, addField]
  rw [hstep]
  dsimp only
  have hkne2 : ∀ x ∈ kbs, x.1 ≠ keyKey := by
    intro x hx he
    have hd := (hgood x (List.mem_cons_of_mem kb hx)).1
    have hdk : startsDunder keyKey = true := by decide
    rw [he, hdk] at hd
    cases hd
  have hnames : kb.1 ∉ kbs.map Prod.fst ∧ (kbs.map Prod.fst).Nodup := by
    rw [List.map_cons, List.nodup_cons] at hnodup'
    exact hnodup'
  have hrun := run_fields kbs
    [(keyKey, SVal.str (recordKeyOf r)), (kb.1, SVal.bytes kb.2)]
    (recordKeyOf r) more
    (by simp)
    hgk
    (fun x hx => hgood x (List.mem_cons_of_mem kb hx))
    hnames.2
    (by
      intro x hx
      apply lookup_none_of_ne
      intro kv hkv
      rcases List.mem_cons.mp hkv with rfl | hkv
      · exact fun he => hkne2 x hx he.symm
      · rcases List.mem_cons.mp hkv with rfl | hkv
        · intro he
          exact hnames.1 (he ▸ List.mem_map_of_mem Prod.fst hx)
        · cases hkv)
  rw [hrun]
  have hrs : ([(keyKey, SVal.str (recordKeyOf r)), (kb.1, SVal.bytes kb.2)]
        ++ kbs.map (fun kb => (kb.1, SVal.bytes kb.2))) = roundSample r := by
    simp [roundSample, hbf]
  rw [hrs]

/-- The full decode pass over the files of a list of written records. -/
theorem decode_run_aux (rs : List Record) :
    ∀ (cur : Option Sample),
      (∀ r ∈ rs, wfRecord r) →
      List.Chain' (fun a b => recordKeyOf a ≠ recordKeyOf b) rs →
      (cur = none ∨ ∃ s, cur = some s ∧ valid_sample (some s) = true ∧
        ∀ r1 ∈ rs.head?, sameKey s (recordKeyOf r1) = false) →
      groupRun true none cur ((rs.map recFiles).flatten)
        = (cur.toList ++ rs.map roundSample, none) := by
  induction rs with
  | nil =>
    intro cur _ _ hcur
    have hrun : groupRun true none cur [] = (sealEmit cur, none) := by
      unfold groupRun
      rw [groupSteps_nil]
      rfl
    rw [List.map_nil]
    show groupRun true none cur [] = _
    rw [hrun]
    rcases hcur with rfl | ⟨s, rfl, hv, _⟩
    · simp [sealEmit, valid_sample]
    · simp [sealEmit, hv]
  | cons r rs' ih =>
    intro cur hwf hchain hcur
    rw [List.map_cons, List.flatten_cons]
    have hcc : cur = none ∨ ∃ s, cur = some s ∧ sameKey s (recordKeyOf r) = false := by
      rcases hcur with rfl | ⟨s, rfl, _, hk⟩
      · exact Or.inl rfl
      · exact Or.inr ⟨s, rfl, hk r (by simp)⟩
    have hchain' : List.Chain' (fun a b => recordKeyOf a ≠ recordKeyOf b) rs' := by
      cases rs' with
      | nil => exact List.chain'_nil
      | cons r2 t => exact (List.chain'_cons.mp hchain).2
    have hihcur : (some (roundSample r) : Option Sample) = none ∨
        ∃ s, (some (roundSample r) : Option Sample) = some s ∧
          valid_sample (some s) = true ∧
          ∀ r1 ∈ rs'.head?, sameKey s (recordKeyOf r1) = false := by
      right
      refine ⟨roundSample r, rfl, roundSample_valid r, ?_⟩
      intro r1 hr1
      rw [sameKey_roundSample]
      cases rs' with
      | nil => cases hr1
      | cons r2 t =>
        have he : r2 = r1 := by simpa using hr1
        subst he
        have hne := (List.chain'_cons.mp hchain).1
        simp [hne]
    have hih := ih (some (roundSample r))
      (fun x hx => hwf x (List.mem_cons_of_mem r hx)) hchain' hihcur
    unfold groupRun
    rw [run_record r cur ((rs'.map recFiles).flatten) (hwf r (by simp)) hcc]
    unfold groupRun at hih
    rcases hS : groupSteps true none (some (roundSample r)) ((rs'.map recFiles).flatten)
      with ⟨em2, cur2, err2⟩
    cases err2 with
    | some e =>
      rw [hS] at hih
      simp at hih
    | none =>
      rw [hS] at hih
      simp only [Option.toList_some, List.singleton_append] at hih
      dsimp only at hih ⊢
      have hem : em2 ++ sealEmit cur2 = roundSample r :: rs'.map roundSample := by
        have := congrArg Prod.fst hih
        simpa using this
      have hseal : sealEmit cur = cur.toList := by
        rcases hcur with rfl | ⟨s, rfl, hv, _⟩
        · simp [sealEmit, valid_sample]
        · simp [sealEmit, hv]
      rw [List.map_cons, hseal, List.append_assoc, hem]

/-! ### Lemmas about the encoder on well-formed records -/

theorem encodeBlockAux_cons (gen : Nat → String) (i : Nat) (r : Record)
    (rest : List Record) :
    encodeBlockAux gen i (r :: rest)
      = match encodeRecord (gen i) r with
        | (es, false) =>
          let t := encodeBlockAux gen (i + 1) rest
          (es ++ t.1, t.2)
        | (es, true) => (es, true) := rfl

theorem encodeRecord_wf (g : String) (r : Record) (hwf : wfRecord r) :
    encodeRecord g r
      = ((bytesFields r).map (fun kb => mkEntry (recordKeyOf r) kb.1 kb.2), false) := by
  obtain ⟨hlk, _, _, hflds, _⟩ := hwf
  have hkeyed : keyedRecord g r = r := by
    unfold keyedRecord
    rw [hlk]
    rfl
  unfold encodeRecord
  rw [hkeyed]
  apply encodeFields_clean
  intro kv hkv
  by_cases hk : kv.1 = keyKey
  · left
    rw [hk]
    decide
  · right
    have hb := (hflds kv hkv hk).2
    cases hv : kv.2 with
    | bytes b => exact ⟨b, rfl⟩
    | str s => rw [hv] at hb; simp [RVal.isBytes] at hb
    | null => rw [hv] at hb; simp [RVal.isBytes] at hb
    | other => rw [hv] at hb; simp [RVal.isBytes] at hb

theorem encodeBlockAux_wf (gen : Nat → String) (rs : List Record) :
    ∀ i, (∀ r ∈ rs, wfRecord r) →
      encodeBlockAux gen i rs
        = ((rs.map (fun r => (bytesFields r).map
            (fun kb => mkEntry (recordKeyOf r) kb.1 kb.2))).flatten, false) := by
  induction rs with
  | nil =>
    intro i _
    rfl
  | cons r rest ih =>
    intro i hwf
    rw [encodeBlockAux_cons, encodeRecord_wf (gen i) r (hwf r (by simp)),
      ih (i + 1) (fun x hx => hwf x (List.mem_cons_of_mem r hx))]
    simp

/-! ### Lemmas about the fresh keys -/

theorem hexDigit_mem (n : Nat) : hexDigit n ∈ hexChars := by
  unfold hexDigit
  rw [List.getD_eq_getElem?_getD]
  cases hg : hexChars[n % 16]? with
  | none =>
    simp only [Option.getD_none]
    decide
  | some c =>
    simp only [Option.getD_some]
    exact List.getElem?_mem hg

theorem uuid4Hex_good (seed : Nat) : goodKey (uuid4Hex seed) := by
  have hdata : (uuid4Hex seed).data
      = (List.range 32).map (fun i => hexDigit (seed / 16 ^ i % 16)) := rfl
  refine ⟨?_, ?_, ?_⟩
  · intro h
    have hd := congrArg String.data h
    rw [hdata] at hd
    simp at hd
  · intro h
    rw [hdata, List.mem_map] at h
    obtain ⟨i, _, hi⟩ := h
    have hmem := hexDigit_mem (seed / 16 ^ i % 16)
    rw [hi] at hmem
    revert hmem
    decide
  · intro h
    rw [hdata, List.mem_map] at h
    obtain ⟨i, _, hi⟩ := h
    have hmem := hexDigit_mem (seed / 16 ^ i % 16)
    rw [hi] at hmem
    revert hmem
    decide

/-! ### Lemmas about feeding written entries back to the reader -/

theorem keyedRecord_missing (g : String) (r : Record)
    (h : List.lookup keyKey r = none) :
    keyedRecord g r = r ++ [(keyKey, RVal.str g)] := by
  unfold keyedRecord
  rw [h]
  rfl

theorem recordKeyOf_appended (g : String) (r : Record)
    (h : List.lookup keyKey r = none) :
    recordKeyOf (r ++ [(keyKey, RVal.str g)]) = g := by
  unfold recordKeyOf
  rw [lookup_append_none h]
  simp

theorem tar_file_iterator_out (es : List OutEntry) :
    tar_file_iterator (es.map outToTar) (fun _ => false) none
      = es.map (fun e => ⟨e.name, e.data, none⟩) := by
  induction es with
  | nil => rfl
  | cons e t ih =>
    rw [List.map_cons]
    unfold tar_file_iterator at ih ⊢
    rw [List.filterMap_cons]
    dsimp only [outToTar]
    rw [ih]
    rfl

theorem recFiles_eq (r : Record) :
    ((bytesFields r).map (fun kb => mkEntry (recordKeyOf r) kb.1 kb.2)).map
      (fun e => (⟨e.name, e.data, none⟩ : FileSample)) = recFiles r := by
  rw [List.map_map]
  rfl

theorem groupSteps_append (lcase : Bool) (sfx : Option (List String))
    (A : List FileSample) :
    ∀ (B : List FileSample) (cur : Option Sample) (ems : List Sample)
      (cur' : Option Sample),
      groupSteps lcase sfx cur A = (ems, cur', none) →
      groupSteps lcase sfx cur (A ++ B)
        = (ems ++ (groupSteps lcase sfx cur' B).1,
           (groupSteps lcase sfx cur' B).2.1, (groupSteps lcase sfx cur' B).2.2) := by
  induction A with
  | nil =>
    intro B cur ems cur' h
    rw [groupSteps_nil] at h
    simp only [Prod.mk.injEq] at h
    obtain ⟨h1, h2, -⟩ := h
    subst h1
    subst h2
    simp
  | cons fs A' ih =>
    intro B cur ems cur' h
    rw [groupSteps_cons] at h
    rw [List.cons_append, groupSteps_cons]
    rcases hstep : groupStep lcase sfx cur fs with ⟨em1, cur1, err1⟩
    cases err1 with
    | some e =>
      rw [hstep] at h
      simp at h
    | none =>
      rw [hstep] at h
      dsimp only at h ⊢
      rcases hA : groupSteps lcase sfx cur1 A' with ⟨em2, cur2, err2⟩
      rw [hA] at h
      simp only [Prod.mk.injEq] at h
      obtain ⟨h1, h2, h3⟩ := h
      cases err2 with
      | some e2 => cases h3
      | none =>
        subst h2
        rw [ih B cur1 em2 cur2 hA, ← h1]
        simp [List.append_assoc]

/-- `encodeFields` on a field list whose first failing field is `(k, other)`:
everything writable before it has been pushed, then the assert aborts. -/
theorem encodeFields_offender (key k : String) (post : List (String × RVal))
    (hk : startsDunder k = false) :
    ∀ (pre : List (String × RVal)),
      (∀ kv ∈ pre, kv.2 = RVal.other → startsDunder kv.1 = true) →
      encodeFields key (pre ++ (k, RVal.other) :: post) = (writableOf key pre, true) := by
  intro pre
  induction pre with
  | nil =>
    intro _
    rw [List.nil_append]
    show encodeFields key ((k, RVal.other) :: post) = _
    simp [encodeFields, hk, writableOf]
  | cons kv rest ih =>
    intro hpre
    have hih := ih (fun x hx h => hpre x (List.mem_cons_of_mem kv hx) h)
    by_cases hnull : kv.2 = RVal.null
    · rw [show encodeFields key ((kv :: rest) ++ (k, RVal.other) :: post)
          = encodeFields key (rest ++ (k, RVal.other) :: post) by
        simp [encodeFields, hnull]]
      rw [show writableOf key (kv :: rest) = writableOf key rest by
        simp [writableOf, List.filterMap_cons, hnull]]
      exact hih
    · by_cases hd : startsDunder kv.1
      · rw [show encodeFields key ((kv :: rest) ++ (k, RVal.other) :: post)
            = encodeFields key (rest ++ (k, RVal.other) :: post) by
          simp [encodeFields, hnull, hd]]
        rw [show writableOf key (kv :: rest) = writableOf key rest by
          simp [writableOf, List.filterMap_cons, hnull, hd]]
        exact hih
      · cases hv : kv.2 with
        | null => exact absurd hv hnull
        | other =>
          exact absurd (hpre kv (List.mem_cons_self kv rest) hv) hd
        | bytes b =>
          rw [show encodeFields key ((kv :: rest) ++ (k, RVal.other) :: post)
              = (mkEntry key kv.1 b
                  :: (encodeFields key (rest ++ (k, RVal.other) :: post)).1,
                 (encodeFields key (rest ++ (k, RVal.other) :: post)).2) by
            simp [encodeFields, hnull, hd, hv]]
          rw [show writableOf key (kv :: rest)
              = mkEntry key kv.1 b :: writableOf key rest by
            simp [writableOf, List.filterMap_cons, hnull, hd, hv]]
          rw [hih]
        | str s =>
          rw [show encodeFields key ((kv :: rest) ++ (k, RVal.other) :: post)
              = (mkEntry key kv.1 (utf8Bytes s)
                  :: (encodeFields key (rest ++ (k, RVal.other) :: post)).1,
                 (encodeFields key (rest ++ (k, RVal.other) :: post)).2) by
            simp [encodeFields, hnull, hd, hv]]
          rw [show writableOf key (kv :: rest)
              = mkEntry key kv.1 (utf8Bytes s) :: writableOf key rest by
            simp [writableOf, List.filterMap_cons, hnull, hd, hv]]
          rw [hih]

/-! ### The claims -/

/-- C1: decoding an archive whose entries are, in order, `a.jpg, a.cls,
b.jpg, b.cls` (each a regular file) yields exactly two samples: the first
with key `a`, the second with key `b`, each containing exactly the two
payload fields `jpg` and `cls` with the corresponding entry payloads
(besides the reserved `__key__`/`__url__` metadata). -/
theorem c1_grouping (u : String) (p1 p2 p3 p4 : List Nat) :
    readSamples
      [⟨("a.jpg"), true, p1⟩, ⟨("a.cls"), true, p2⟩,
        ⟨("b.jpg"), true, p3⟩, ⟨("b.cls"), true, p4⟩] u
      = ([[(keyKey, SVal.str ("a")), (keyUrl, SVal.str u),
            (("jpg" : String), SVal.bytes p1), (("cls" : String), SVal.bytes p2)],
          [(keyKey, SVal.str ("b")), (keyUrl, SVal.str u),
            (("jpg" : String), SVal.bytes p3), (("cls" : String), SVal.bytes p4)]],
         none) := by
  rfl

/-- C3: grouping follows physical contiguity, not key equality: decoding
entries `a.jpg, b.jpg, a.cls` (in that order) yields exactly three samples,
`{a: jpg}`, `{b: jpg}`, `{a: cls}`, in that order — the two non-adjacent
runs sharing the prefix `a` produce two separate samples. -/
theorem c3_contiguity (u : String) (p1 p2 p3 : List Nat) :
    readSamples
      [⟨("a.jpg"), true, p1⟩, ⟨("b.jpg"), true, p2⟩, ⟨("a.cls"), true, p3⟩] u
      = ([[(keyKey, SVal.str ("a")), (keyUrl, SVal.str u),
            (("jpg" : String), SVal.bytes p1)],
          [(keyKey, SVal.str ("b")), (keyUrl, SVal.str u),
            (("jpg" : String), SVal.bytes p2)],
          [(keyKey, SVal.str ("a")), (keyUrl, SVal.str u),
            (("cls" : String), SVal.bytes p3)]],
         none) := by
  rfl

/-- C5: validity gate invariant — every sample emitted by a full
`group_by_keys` pass is valid: it is nonempty and its `__bad__` field, if
present, is not truthy.  In particular a sample with a truthy `__bad__`
payload is never emitted. -/
theorem c5_validity_gate (data : List FileSample) (lcase : Bool)
    (sfx : Option (List String)) (s : Sample)
    (h : s ∈ (group_by_keys data lcase sfx).1) : valid_sample (some s) = true := by
  unfold group_by_keys groupRun at h
  rcases hS : groupSteps lcase sfx none data with ⟨em, cur', err⟩
  rw [hS] at h
  cases err with
  | none =>
    dsimp only at h
    rcases List.mem_append.mp h with h | h
    · exact steps_valid lcase sfx data none s (by rw [hS]; exact h)
    · exact mem_sealEmit h
  | some e =>
    dsimp only at h
    exact steps_valid lcase sfx data none s (by rw [hS]; exact h)

theorem c5_witness :
    ([(keyKey, SVal.str ("a")), (("jpg" : String), SVal.bytes [1])]
        ∈ (group_by_keys [⟨("a.jpg"), [1], none⟩] true none).1)
    ∧ valid_sample
        (some [(keyKey, SVal.str ("a")), (("jpg" : String), SVal.bytes [1])]) = true :=
  ⟨by decide,
    c5_validity_gate [⟨("a.jpg"), [1], none⟩] true none
      [(keyKey, SVal.str ("a")), (("jpg" : String), SVal.bytes [1])] (by decide)⟩

theorem base_plus_ext_mk (cs : List Char) :
    base_plus_ext ⟨cs⟩
      = (bpeList cs).map
          (fun (be : List Char × List Char) => ((⟨be.1⟩ : String), (⟨be.2⟩ : String))) :=
  rfl

/-- C7: the path splitter is total — on every path whose final segment
(`v`, the part after the last slash) contains no dot it returns the
absent pair, and the grouper then discards that entry silently: the run
over the remaining entries is unchanged and no error is raised. -/
theorem c7_no_dot_skip (u v : List Char) (lcase : Bool)
    (sfx : Option (List String)) (cur : Option Sample) (fs : FileSample)
    (rest : List FileSample)
    (hu : u = [] ∨ ∃ u', u = u' ++ ['/']) (_hv : '/' ∉ v) (hdot : '.' ∉ v)
    (hname : fs.fname = ⟨u ++ v⟩) :
    base_plus_ext ⟨u ++ v⟩ = none ∧
    groupRun lcase sfx cur (fs :: rest) = groupRun lcase sfx cur rest := by
  have hb : bpeList (u ++ v) = none := bpeList_none u v hu hdot
  have hbe : base_plus_ext ⟨u ++ v⟩ = none := by
    rw [base_plus_ext_mk, hb]
    rfl
  refine ⟨hbe, ?_⟩
  have hstep : groupStep lcase sfx cur fs = ([], cur, none) := by
    unfold groupStep
    rw [hname, hbe]
  unfold groupRun
  rw [groupSteps_cons, hstep]
  dsimp only
  rcases hS : groupSteps lcase sfx cur rest with ⟨em, cur', err⟩
  cases err <;> simp

theorem c7_witness :
    ((([] : List Char) = [] ∨ ∃ u', ([] : List Char) = u' ++ ['/'])
      ∧ '/' ∉ (['R', 'E', 'A', 'D', 'M', 'E'] : List Char)
      ∧ '.' ∉ (['R', 'E', 'A', 'D', 'M', 'E'] : List Char)
      ∧ (⟨("README"), [7], none⟩ : FileSample).fname
          = ⟨[] ++ ['R', 'E', 'A', 'D', 'M', 'E']⟩)
    ∧ (base_plus_ext ⟨[] ++ ['R', 'E', 'A', 'D', 'M', 'E']⟩ = none ∧
        groupRun true none none [⟨("README"), [7], none⟩]
          = groupRun true none none []) :=
  ⟨⟨Or.inl rfl, by decide, by decide, by decide⟩,
    c7_no_dot_skip [] ['R', 'E', 'A', 'D', 'M', 'E'] true none none
      ⟨("README"), [7], none⟩ [] (Or.inl rfl) (by decide) (by decide) (by decide)⟩

/-- C10 (implicit): every sample the grouper creates carries its `__key__`
field (as its first entry), so the nonemptiness half of the validity gate
holds for every emitted sample; consequently a sample all of whose payload
fields were dropped by the extension allow-list is still emitted,
containing only `__key__` — filtered-out fields do not count against
validity. -/
theorem c10_key_field :
    (∀ (data : List FileSample) (lcase : Bool) (sfx : Option (List String))
        (s : Sample), s ∈ (group_by_keys data lcase sfx).1 →
          ∃ k t, s = (keyKey, SVal.str k) :: t) ∧
    (∀ (fs : FileSample) (pre suffix : String) (l : List String),
        base_plus_ext fs.fname = some (pre, suffix) → fs.url = none →
        lowerStr suffix ∉ l → lowerStr suffix ≠ keyKey →
        group_by_keys [fs] true (some l)
          = ([[(keyKey, SVal.str pre)]], none)) := by
  constructor
  · intro data lcase sfx s h
    unfold group_by_keys groupRun at h
    rcases hS : groupSteps lcase sfx none data with ⟨em, cur', err⟩
    rw [hS] at h
    have hsh := steps_shape lcase sfx data none (by intro s hs; cases hs)
    cases err with
    | none =>
      dsimp only at h
      rcases List.mem_append.mp h with h | h
      · exact hsh.1 s (by rw [hS]; exact h)
      · unfold sealEmit at h
        by_cases hv : valid_sample cur'
        · rw [if_pos hv] at h
          cases cur' with
          | none => cases h
          | some d =>
            simp only [Option.toList_some, List.mem_singleton] at h
            subst h
            exact hsh.2 s (by rw [hS])
        · rw [if_neg hv] at h
          cases h
    | some e =>
      dsimp only at h
      exact hsh.1 s (by rw [hS]; exact h)
  · intro fs pre suffix l hbe hurl hnl hnk
    have hnf : hasField [(keyKey, SVal.str pre)] (lowerStr suffix) = false := by
      have hlk : List.lookup (lowerStr suffix) [(keyKey, SVal.str pre)] = none := by
        apply lookup_none_of_ne
        intro kv hkv
        rcases List.mem_cons.mp hkv with rfl | hkv
        · exact fun he => hnk he.symm
        · cases hkv
      unfold hasField
      rw [hlk]
      rfl
    have hstep : groupStep true (some l) none fs
        = ([], some [(keyKey, SVal.str pre)], none) := by
      unfold groupStep
      rw [hbe]
      dsimp only
      rw [hurl]
      simp [ingest, hnf, hnl, sealEmit, valid_sample, newSample]
    unfold group_by_keys groupRun
    rw [groupSteps_cons, hstep]
    dsimp only
    rw [groupSteps_nil]
    have hlkb : List.lookup keyBad [(keyKey, SVal.str pre)] = none := by
      apply lookup_none_of_ne
      intro kv hkv
      rcases List.mem_cons.mp hkv with rfl | hkv
      · exact (by decide : keyKey ≠ keyBad)
      · cases hkv
    simp [sealEmit, valid_sample, hlkb]

theorem c10_witness :
    (base_plus_ext (⟨("a.jpg"), [7], none⟩ : FileSample).fname
        = some (("a"), ("jpg"))
      ∧ (⟨("a.jpg"), [7], none⟩ : FileSample).url = none
      ∧ lowerStr ("jpg") ∉ [("cls" : String)]
      ∧ lowerStr ("jpg") ≠ keyKey)
    ∧ group_by_keys [⟨("a.jpg"), [7], none⟩] true (some [("cls" : String)])
        = ([[(keyKey, SVal.str ("a"))]], none) :=
  ⟨⟨by decide, rfl, by decide, by decide⟩,
    c10_key_field.2 ⟨("a.jpg"), [7], none⟩ ("a") ("jpg") [("cls" : String)]
      (by decide) rfl (by decide) (by decide)⟩

/-- C4: if an incoming entry's extension (lower-cased under the default
configuration) is already a field of the in-progress sample, the grouper
raises a duplicate-field error whose message names the entry and the
conflicting extension, and the pass aborts: the output is exactly the
samples emitted before the failure plus the error — the in-progress sample
is never emitted and the remaining entries are not processed. -/
theorem c4_duplicate_error (lcase : Bool) (sfx : Option (List String))
    (pre : List FileSample) (ems : List Sample) (s : Sample) (fs : FileSample)
    (rest : List FileSample) (p sfx0 : String)
    (hpre : groupSteps lcase sfx none pre = (ems, some s, none))
    (hbe : base_plus_ext fs.fname = some (p, sfx0))
    (hkey : sameKey s p = true)
    (hdup : hasField s (if lcase then lowerStr sfx0 else sfx0) = true) :
    group_by_keys (pre ++ fs :: rest) lcase sfx
      = (ems, some ⟨fs.fname, (if lcase then lowerStr sfx0 else sfx0),
          s.map Prod.fst⟩) := by
  unfold group_by_keys groupRun
  rw [groupSteps_append lcase sfx pre (fs :: rest) none ems (some s) hpre]
  rw [groupSteps_cons]
  have hstep : groupStep lcase sfx (some s) fs
      = ([], some s, some ⟨fs.fname, (if lcase then lowerStr sfx0 else sfx0),
          s.map Prod.fst⟩) := by
    unfold groupStep
    rw [hbe]
    dsimp only
    rw [hkey]
    simp [ingest, hdup]
  rw [hstep]
  dsimp only
  simp

theorem c4_witness :
    (groupSteps true none none [⟨("b.x"), [0], none⟩, ⟨("a.JPG"), [1], none⟩]
        = ([[(keyKey, SVal.str ("b")), (("x" : String), SVal.bytes [0])]],
           some [(keyKey, SVal.str ("a")), (("jpg" : String), SVal.bytes [1])],
           none)
      ∧ base_plus_ext (⟨("a.jpg"), [2], none⟩ : FileSample).fname
          = some (("a"), ("jpg"))
      ∧ sameKey [(keyKey, SVal.str ("a")), (("jpg" : String), SVal.bytes [1])]
          ("a") = true
      ∧ hasField [(keyKey, SVal.str ("a")), (("jpg" : String), SVal.bytes [1])]
          (if true then lowerStr ("jpg") else ("jpg")) = true)
    ∧ group_by_keys
        ([⟨("b.x"), [0], none⟩, ⟨("a.JPG"), [1], none⟩] ++ ⟨("a.jpg"), [2], none⟩ :: [])
        true none
      = ([[(keyKey, SVal.str ("b")), (("x" : String), SVal.bytes [0])]],
         some ⟨("a.jpg"), (if true then lowerStr ("jpg") else ("jpg")),
           [(keyKey, SVal.str ("a")), (("jpg" : String), SVal.bytes [1])].map
             Prod.fst⟩) :=
  ⟨⟨by decide, by decide, by decide, by decide⟩,
    c4_duplicate_error true none [⟨("b.x"), [0], none⟩, ⟨("a.JPG"), [1], none⟩]
      [[(keyKey, SVal.str ("b")), (("x" : String), SVal.bytes [0])]]
      [(keyKey, SVal.str ("a")), (("jpg" : String), SVal.bytes [1])]
      ⟨("a.jpg"), [2], none⟩ [] ("a") ("jpg")
      (by decide) (by decide) (by decide) (by decide)⟩

/-- C6, counterexample: the path splitter applied to `a.b.c` returns base
`a` and extension `b.c` (it splits at the first dot of the final segment,
"splitting off all extensions" as its docstring says), not key `a.b` and
extension `c` as the claim states. -/
theorem c6_counterexample :
    base_plus_ext ("a.b.c") = some (("a"), ("b.c"))
    ∧ base_plus_ext ("a.b.c") ≠ some (("a.b"), ("c")) := by
  exact ⟨by decide, by decide⟩

/-- C6, amended: for every entry name whose final path segment contains
one or more dots, the *first* dot of the final segment splits the name:
the key is everything before it (directories `d` included) and the
extension is everything after it — so `a.b.c` yields key `a` and
extension `b.c`.  (`d` is the directory prefix, empty or slash-terminated
and newline-free; `a` is the nonempty dot-free start of the final segment;
`b`, the extension, may itself contain further dots.) -/
theorem c6_first_dot_split (d a b : List Char)
    (hd : d = [] ∨ ∃ d', d = d' ++ ['/']) (hnl : '\n' ∉ d)
    (ha : a ≠ []) (hadot : '.' ∉ a) (haslash : '/' ∉ a) (hbslash : '/' ∉ b) :
    base_plus_ext ⟨d ++ a ++ '.' :: b⟩ = some (⟨d ++ a⟩, ⟨b⟩) := by
  have hseg : segSplit (a ++ '.' :: b) = some (a, b) := by
    rw [segSplit_shape a b hadot ha]
    simp [hbslash]
  rcases hd with rfl | ⟨d', rfl⟩
  · have hno : '/' ∉ a ++ '.' :: b := by
      intro h
      rcases List.mem_append.mp h with h | h
      · exact haslash h
      · rcases List.mem_cons.mp h with h | h
        · cases h
        · exact hbslash h
    rw [base_plus_ext_mk]
    simp only [List.nil_append]
    rw [bpeList_no_slash (a ++ '.' :: b) a b hno hseg]
    rfl
  · have hr : '/' ∉ a ++ '.' :: b := by
      intro h
      rcases List.mem_append.mp h with h | h
      · exact haslash h
      · rcases List.mem_cons.mp h with h | h
        · cases h
        · exact hbslash h
    have hnl' : '\n' ∉ d' := fun hm => hnl (List.mem_append.mpr (Or.inl hm))
    have hb := bpeList_last_slash d' (a ++ '.' :: b) a b hr hnl' hseg
    rw [base_plus_ext_mk]
    rw [show ((d' ++ ['/']) ++ a) ++ '.' :: b = d' ++ '/' :: (a ++ '.' :: b) by simp]
    rw [hb]
    have he : d' ++ '/' :: a = (d' ++ ['/']) ++ a := by simp
    rw [he]
    rfl

theorem c6_witness :
    ((['d', 'i', 'r', '/'] : List Char) = []
        ∨ ∃ d', (['d', 'i', 'r', '/'] : List Char) = d' ++ ['/'])
    ∧ '\n' ∉ (['d', 'i', 'r', '/'] : List Char)
    ∧ (['a'] : List Char) ≠ []
    ∧ '.' ∉ (['a'] : List Char)
    ∧ '/' ∉ (['a'] : List Char)
    ∧ '/' ∉ (['b', '.', 'c'] : List Char)
    ∧ base_plus_ext ⟨['d', 'i', 'r', '/'] ++ ['a'] ++ '.' :: ['b', '.', 'c']⟩
        = some (⟨['d', 'i', 'r', '/'] ++ ['a']⟩, ⟨['b', '.', 'c']⟩) :=
  ⟨Or.inr ⟨['d', 'i', 'r'], rfl⟩, by decide, by decide, by decide, by decide,
    by decide,
    c6_first_dot_split ['d', 'i', 'r', '/'] ['a'] ['b', '.', 'c']
      (Or.inr ⟨['d', 'i', 'r'], rfl⟩) (by decide) (by decide) (by decide)
      (by decide) (by decide)⟩

/-- C2, counterexample: the round trip does not preserve every sequence of
samples with lower-case byte-valued fields — a sample with key `x.y` and
field `jpg` is written as the entry `x.y.jpg`, which decodes back to a
sample with key `x` and field `y.jpg`: neither the key nor the field set
is preserved. -/
theorem c2_counterexample :
    decodeEntries (writeBlock (fun _ => 0)
        [[(keyKey, RVal.str ("x.y")), (("jpg" : String), RVal.bytes [97])]]).1
      = ([[(keyKey, SVal.str ("x")), (("y.jpg" : String), SVal.bytes [97])]], none)
    ∧ ([[(keyKey, SVal.str ("x")), (("y.jpg" : String), SVal.bytes [97])]]
        : List Sample)
      ≠ [[(keyKey, SVal.str ("x.y")), (("jpg" : String), SVal.bytes [97])]] := by
  exact ⟨by decide, by decide⟩

/-- C2, amended: the round trip preserves every sequence of records whose
keys are nonempty strings free of dots and slashes with adjacent records
keyed differently, and whose other fields are byte-valued under unique,
lower-case, slash-free, non-reserved names, at least one per record:
encoding writes without error and decoding the written archive yields
exactly one sample per record, in order, with the same key and the same
field contents. -/
theorem c2_roundtrip (entropy : Nat → Nat) (rs : List Record)
    (hwf : ∀ r ∈ rs, wfRecord r)
    (hchain : List.Chain' (fun a b => recordKeyOf a ≠ recordKeyOf b) rs) :
    (writeBlock entropy rs).2 = false ∧
    decodeEntries (writeBlock entropy rs).1 = (rs.map roundSample, none) := by
  have henc : writeBlock entropy rs
      = ((rs.map (fun r => (bytesFields r).map
          (fun kb => mkEntry (recordKeyOf r) kb.1 kb.2))).flatten, false) :=
    encodeBlockAux_wf _ rs 0 hwf
  constructor
  · rw [henc]
  · rw [henc]
    unfold decodeEntries group_by_keys
    dsimp only
    rw [tar_file_iterator_out, List.map_flatten]
    have hmm : (rs.map (fun r => (bytesFields r).map
          (fun kb => mkEntry (recordKeyOf r) kb.1 kb.2))).map
        (List.map (fun e => (⟨e.name, e.data, none⟩ : FileSample)))
        = rs.map recFiles := by
      rw [List.map_map]
      apply List.map_congr_left
      intro r _
      exact recFiles_eq r
    rw [hmm]
    simpa using decode_run_aux rs none hwf hchain (Or.inl rfl)

theorem c2_witness :
    ((∀ r ∈ [[(keyKey, RVal.str ("x")), (("jpg" : String), RVal.bytes [104]),
          (("cls" : String), RVal.bytes [53])]], wfRecord r)
      ∧ List.Chain' (fun a b => recordKeyOf a ≠ recordKeyOf b)
          [[(keyKey, RVal.str ("x")), (("jpg" : String), RVal.bytes [104]),
            (("cls" : String), RVal.bytes [53])]])
    ∧ ((writeBlock (fun _ => 0)
          [[(keyKey, RVal.str ("x")), (("jpg" : String), RVal.bytes [104]),
            (("cls" : String), RVal.bytes [53])]]).2 = false
      ∧ decodeEntries (writeBlock (fun _ => 0)
          [[(keyKey, RVal.str ("x")), (("jpg" : String), RVal.bytes [104]),
            (("cls" : String), RVal.bytes [53])]]).1
        = ([[(keyKey, RVal.str ("x")), (("jpg" : String), RVal.bytes [104]),
            (("cls" : String), RVal.bytes [53])]].map roundSample, none)) :=
  ⟨⟨by decide, List.chain'_singleton _⟩,
    c2_roundtrip (fun _ => 0)
      [[(keyKey, RVal.str ("x")), (("jpg" : String), RVal.bytes [104]),
        (("cls" : String), RVal.bytes [53])]] (by decide) (List.chain'_singleton _)⟩

/-- C8, counterexample: a record containing a field value that is neither
byte content nor text (here `None`) does *not* make the encode pass fail —
the field is skipped silently and the encode succeeds with no error. -/
theorem c8_counterexample :
    writeBlock (fun _ => 0)
        [[(keyKey, RVal.str ("x")), (("a" : String), RVal.null)]]
      = ([], false) := by
  decide

/-- C8, amended: encoding a record is *not* atomic.  When the first
offending field of a record (a non-`None` value that is neither bytes nor
text, under a non-reserved name) is reached, the encode pass fails with
the assertion error, but the entries for the record's earlier writable
fields have already been pushed to the destination; the remaining fields
and all later records are not written. -/
theorem c8_nonatomic_encode (entropy : Nat → Nat) (r : Record)
    (rest : List Record) (pre post : List (String × RVal)) (k : String)
    (hsplit : keyedRecord (uuid4Hex (entropy 0)) r
      = pre ++ (k, RVal.other) :: post)
    (hpre : ∀ kv ∈ pre, kv.2 = RVal.other → startsDunder kv.1 = true)
    (hk : startsDunder k = false) :
    writeBlock entropy (r :: rest)
      = (writableOf (recordKeyOf (pre ++ (k, RVal.other) :: post)) pre, true) := by
  unfold writeBlock encodeBlock
  rw [encodeBlockAux_cons]
  dsimp only
  have henc : encodeRecord (uuid4Hex (entropy 0)) r
      = (writableOf (recordKeyOf (pre ++ (k, RVal.other) :: post)) pre, true) := by
    unfold encodeRecord
    rw [hsplit]
    exact encodeFields_offender (recordKeyOf (pre ++ (k, RVal.other) :: post))
      k post hk pre hpre
  rw [henc]

theorem c8_witness :
    ((keyedRecord (uuid4Hex 0)
        [(keyKey, RVal.str ("x")), (("a" : String), RVal.bytes [1]),
          (("b" : String), RVal.other), (("c" : String), RVal.bytes [2])]
      = [(keyKey, RVal.str ("x")), (("a" : String), RVal.bytes [1])]
          ++ (("b" : String), RVal.other) :: [(("c" : String), RVal.bytes [2])])
      ∧ (∀ kv ∈ [(keyKey, RVal.str ("x")), (("a" : String), RVal.bytes [1])],
          kv.2 = RVal.other → startsDunder kv.1 = true)
      ∧ startsDunder ("b") = false)
    ∧ writeBlock (fun _ => 0)
        ([(keyKey, RVal.str ("x")), (("a" : String), RVal.bytes [1]),
          (("b" : String), RVal.other), (("c" : String), RVal.bytes [2])]
          :: [[(("d" : String), RVal.bytes [3])]])
      = (writableOf
          (recordKeyOf
            ([(keyKey, RVal.str ("x")), (("a" : String), RVal.bytes [1])]
              ++ (("b" : String), RVal.other) :: [(("c" : String), RVal.bytes [2])]))
          [(keyKey, RVal.str ("x")), (("a" : String), RVal.bytes [1])], true) :=
  ⟨⟨by decide, by decide, by decide⟩,
    c8_nonatomic_encode (fun _ => 0)
      [(keyKey, RVal.str ("x")), (("a" : String), RVal.bytes [1]),
        (("b" : String), RVal.other), (("c" : String), RVal.bytes [2])]
      [[(("d" : String), RVal.bytes [3])]]
      [(keyKey, RVal.str ("x")), (("a" : String), RVal.bytes [1])]
      [(("c" : String), RVal.bytes [2])] ("b")
      (by decide) (by decide) (by decide)⟩

/-- C9, counterexample: encoding a record that lacks a key is *not*
guaranteed to produce an archive group that decodes to exactly one sample —
a record with no writable field (here the empty record) writes no entries
at all, and decoding the result yields zero samples. -/
theorem c9_counterexample :
    writeBlock (fun _ => 0) [([] : Record)] = ([], false)
    ∧ decodeEntries (writeBlock (fun _ => 0) [([] : Record)]).1 = ([], none) := by
  exact ⟨by decide, by decide⟩

/-- C9, amended: encoding a record that lacks a key field and has at least
one field — all fields byte-valued under unique, lower-case, slash-free,
non-reserved names — writes all of its entries under the one freshly
generated key `uuid4().hex`, which is nonempty, and decoding the resulting
archive yields exactly one sample, keyed by the generated key and holding
the record's field contents. -/
theorem c9_key_synthesis (entropy : Nat → Nat) (r : Record)
    (hnokey : List.lookup keyKey r = none)
    (hflds : ∀ kv ∈ r, goodFieldName kv.1 ∧ kv.2.isBytes = true)
    (hnodup : (r.map Prod.fst).Nodup)
    (hne : r ≠ []) :
    uuid4Hex (entropy 0) ≠ ""
    ∧ writeBlock entropy [r]
        = ((bytesFields r).map
            (fun kb => mkEntry (uuid4Hex (entropy 0)) kb.1 kb.2), false)
    ∧ decodeEntries (writeBlock entropy [r]).1
        = ([(keyKey, SVal.str (uuid4Hex (entropy 0))) ::
             (bytesFields r).map (fun kb => (kb.1, SVal.bytes kb.2))], none) := by
  have hgood : goodKey (uuid4Hex (entropy 0)) := uuid4Hex_good (entropy 0)
  have hkeyed : keyedRecord (uuid4Hex (entropy 0)) r
      = r ++ [(keyKey, RVal.str (uuid4Hex (entropy 0)))] :=
    keyedRecord_missing _ r hnokey
  have hrko : recordKeyOf (r ++ [(keyKey, RVal.str (uuid4Hex (entropy 0)))])
      = uuid4Hex (entropy 0) := recordKeyOf_appended _ r hnokey
  have hdk : startsDunder keyKey = true := by decide
  have hbfr : bytesFields (r ++ [(keyKey, RVal.str (uuid4Hex (entropy 0)))])
      = bytesFields r := by
    unfold bytesFields
    rw [List.filterMap_append]
    simp [hdk]
  have hkeyne : ∀ kv ∈ r, kv.1 ≠ keyKey := by
    intro kv hkv he
    have hd := (hflds kv hkv).1.1
    rw [he, hdk] at hd
    cases hd
  have hbne : bytesFields r ≠ [] := by
    rcases hr : r with _ | ⟨kv, t⟩
    · exact absurd hr hne
    · have h1 := (hflds kv (by rw [hr]; simp)).1.1
      have h2 := (hflds kv (by rw [hr]; simp)).2
      cases hv : kv.2 with
      | bytes b => simp [bytesFields, List.filterMap_cons, h1, hv]
      | str s => rw [hv] at h2; simp [RVal.isBytes] at h2
      | null => rw [hv] at h2; simp [RVal.isBytes] at h2
      | other => rw [hv] at h2; simp [RVal.isBytes] at h2
  have hwf' : wfRecord (r ++ [(keyKey, RVal.str (uuid4Hex (entropy 0)))]) := by
    refine ⟨?_, ?_, ?_, ?_, ?_⟩
    · rw [hrko, lookup_append_none hnokey]
      simp
    · rw [hrko]
      exact hgood
    · rw [List.map_append]
      apply List.Nodup.append hnodup (by simp)
      intro x hx hx2
      simp only [List.map_cons, List.map_nil, List.mem_singleton] at hx2
      subst hx2
      rw [List.mem_map] at hx
      obtain ⟨kv, hkv, hfst⟩ := hx
      exact hkeyne kv hkv hfst
    · intro kv hkv hne2
      rcases List.mem_append.mp hkv with h | h
      · exact ⟨(hflds kv h).1, (hflds kv h).2⟩
      · rcases List.mem_cons.mp h with rfl | h
        · exact absurd rfl hne2
        · cases h
    · rw [hbfr]
      exact hbne
  have hkr' : keyedRecord (uuid4Hex (entropy 0))
        (r ++ [(keyKey, RVal.str (uuid4Hex (entropy 0)))])
      = r ++ [(keyKey, RVal.str (uuid4Hex (entropy 0)))] := by
    unfold keyedRecord
    rw [lookup_append_none hnokey]
    simp
  have henc : writeBlock entropy [r]
      = ((bytesFields r).map
          (fun kb => mkEntry (uuid4Hex (entropy 0)) kb.1 kb.2), false) := by
    unfold writeBlock encodeBlock
    rw [encodeBlockAux_cons]
    dsimp only
    have he1 : encodeRecord (uuid4Hex (entropy 0)) r
        = ((bytesFields r).map
            (fun kb => mkEntry (uuid4Hex (entropy 0)) kb.1 kb.2), false) := by
      have h2 := encodeRecord_wf (uuid4Hex (entropy 0))
        (r ++ [(keyKey, RVal.str (uuid4Hex (entropy 0)))]) hwf'
      rw [hrko, hbfr] at h2
      unfold encodeRecord at h2 ⊢
      rw [hkeyed]
      rw [hkr'] at h2
      exact h2
    rw [he1]
    simp [encodeBlockAux]
  refine ⟨hgood.1, henc, ?_⟩
  rw [henc]
  unfold decodeEntries group_by_keys
  dsimp only
  rw [tar_file_iterator_out]
  have hfiles : ((bytesFields r).map
        (fun kb => mkEntry (uuid4Hex (entropy 0)) kb.1 kb.2)).map
      (fun e => (⟨e.name, e.data, none⟩ : FileSample))
      = recFiles (r ++ [(keyKey, RVal.str (uuid4Hex (entropy 0)))]) := by
    have hre := recFiles_eq (r ++ [(keyKey, RVal.str (uuid4Hex (entropy 0)))])
    rw [hrko, hbfr] at hre
    exact hre
  rw [hfiles]
  have hrun := decode_run_aux [r ++ [(keyKey, RVal.str (uuid4Hex (entropy 0)))]]
    none
    (by
      intro x hx
      rcases List.mem_cons.mp hx with rfl | hx
      · exact hwf'
      · cases hx)
    (List.chain'_singleton _) (Or.inl rfl)
  simp only [List.map_cons, List.map_nil, List.flatten_cons, List.flatten_nil,
    List.append_nil, Option.toList_none, List.nil_append] at hrun
  rw [hrun]
  unfold roundSample
  rw [hrko, hbfr]

theorem c9_witness :
    (List.lookup keyKey [(("img" : String), RVal.bytes [1])] = none
      ∧ (∀ kv ∈ [(("img" : String), RVal.bytes [1])],
          goodFieldName kv.1 ∧ kv.2.isBytes = true)
      ∧ ([(("img" : String), RVal.bytes [1])].map Prod.fst).Nodup
      ∧ [(("img" : String), RVal.bytes [1])] ≠ ([] : Record))
    ∧ (uuid4Hex 5 ≠ ""
      ∧ writeBlock (fun _ => 5) [[(("img" : String), RVal.bytes [1])]]
          = ((bytesFields [(("img" : String), RVal.bytes [1])]).map
              (fun kb => mkEntry (uuid4Hex 5) kb.1 kb.2), false)
      ∧ decodeEntries
          (writeBlock (fun _ => 5) [[(("img" : String), RVal.bytes [1])]]).1
          = ([(keyKey, SVal.str (uuid4Hex 5)) ::
               (bytesFields [(("img" : String), RVal.bytes [1])]).map
                 (fun kb => (kb.1, SVal.bytes kb.2))], none)) :=
  ⟨⟨by decide, by decide, by decide, by decide⟩,
    c9_key_synthesis (fun _ => 5) [(("img" : String), RVal.bytes [1])]
      (by decide) (by decide) (by decide) (by decide)⟩

end WD
